import Mathlib

/-!
Verification development for the non-Markovian Monte-Carlo solver
(qutip/solver/nm_mcsolve.py).  The Python module is shallowly embedded:
machine floats become exact rationals, external numerical collaborators
(numpy exp, scipy quadrature, eigenvalue and matrix square-root routines)
become function parameters, and fallible operations return Except/Option.
-/

namespace NmMcsolve

/-! ## Rate-level definitions (lines 61-75, 99-105 of nm_mcsolve.py)

The solver stores ops_and_rates, a list of pairs (L_i, Gamma_i).  The
functions below only touch the second components f[1], so they are
embedded over the list of rate functions alone; the operator components
are carried separately where a claim needs them. -/

/-- Embeds the Python builtin float as it is used on line 39,
ops_and_rates.append((L, float)): the appended rate function is the
builtin float itself, and every later call site applies it to the time
argument, f[1](t) = float(t), which returns t for a numeric t. -/
def pyFloat (t : ℚ) : ℚ := t

/-- Embeds line 39: self.ops_and_rates.append((L, float)).  Only the
rate component matters to the rate-level functions, so the appended
entry is the function pyFloat. -/
def append_extra_rate (rates : List (ℚ → ℚ)) : List (ℚ → ℚ) :=
  rates ++ [pyFloat]

/-- Embeds the local variable min_rate of _rate_shift (line 71):
min(f[1](t) for f in self.ops_and_rates).  Python min raises on an
empty sequence; the default 0 of getD is never exercised under the
nonempty hypothesis carried by the theorems. -/
def min_rate (rates : List (ℚ → ℚ)) (t : ℚ) : ℚ :=
  ((rates.map (fun f => f t)).min?).getD 0

/-- Embeds _rate_shift (lines 70-72): 2 * abs(min(0, min_rate)). -/
def rate_shift (rates : List (ℚ → ℚ)) (t : ℚ) : ℚ :=
  2 * |min 0 (min_rate rates t)|

/-- Embeds the rate lookup o_r[ik][1](tk) used on line 103.  Collapse
events are produced by the external jump engine with in-range indices;
the getD default is never exercised for such events. -/
def rateAt (rates : List (ℚ → ℚ)) (ik : ℕ) (tk : ℚ) : ℚ :=
  (rates.getD ik (fun _ => 0)) tk

/-- Embeds _discrete_martingale (lines 101-105): np.prod of the factors
o_r[ik][1](tk) / (o_r[ik][1](tk) + self._rate_shift(tk)) over the
collapse list.  Division is the total field division, matching the way
the value is produced when every denominator is nonzero; the guarded
variant below records where a zero denominator occurs. -/
def discrete_martingale (rates : List (ℚ → ℚ)) (collapses : List (ℚ × ℕ)) : ℚ :=
  (collapses.map
    (fun e => rateAt rates e.2 e.1 / (rateAt rates e.2 e.1 + rate_shift rates e.1))).prod

/-- Embeds the same lines 101-105 with Python float division made
explicitly checked: a zero denominator (where Python would divide zero
by zero or raise) yields none instead of a number. -/
def discrete_martingale_div (rates : List (ℚ → ℚ)) (collapses : List (ℚ × ℕ)) :
    Option ℚ :=
  collapses.foldr
    (fun e acc =>
      match acc with
      | none => none
      | some p =>
        if rateAt rates e.2 e.1 + rate_shift rates e.1 = 0 then none
        else some (rateAt rates e.2 e.1 / (rateAt rates e.2 e.1 + rate_shift rates e.1) * p))
    (some 1)

/-! ## Helper lemmas about list minima and maxima -/

theorem min?_spec (l : List ℚ) (h : l ≠ []) :
    ∃ m, l.min? = some m ∧ m ∈ l ∧ ∀ b ∈ l, m ≤ b := by
  obtain ⟨x, xs, rfl⟩ := List.exists_cons_of_ne_nil h
  have hsome : (x :: xs).min? = some (xs.foldl min x) := rfl
  refine ⟨xs.foldl min x, hsome, ?_, ?_⟩
  · exact List.min?_mem (fun a b => min_choice a b) hsome
  · intro b hb
    exact ((List.le_min?_iff (fun a b c => le_min_iff) hsome).mp
      (le_refl (xs.foldl min x))) b hb

theorem max?_eq_some_of (l : List ℚ) (a : ℚ) (h1 : a ∈ l) (h2 : ∀ b ∈ l, b ≤ a) :
    l.max? = some a := by
  haveI : Std.Antisymm ((· : ℚ) ≤ ·) := ⟨fun h h2 => le_antisymm h h2⟩
  exact (List.max?_eq_some_iff (fun a => le_refl a)
    (fun a b => max_choice a b) (fun a b c => max_le_iff)).mpr ⟨h1, h2⟩

/-! ## Claim theorems at the rate level -/

/-- Claim C4: the rate shift equals 2 * max(0, -m) where m is the
minimum of the rate functions at t; consequently sigma(t) is
nonnegative and Gamma_i(t) + sigma(t) is nonnegative for every rate
function Gamma_i in the sequence. -/
theorem rate_shift_spec (rates : List (ℚ → ℚ)) (t : ℚ) (h : rates ≠ []) :
    (∃ m, (∃ f ∈ rates, f t = m) ∧ (∀ f ∈ rates, m ≤ f t) ∧
        rate_shift rates t = 2 * max 0 (-m)) ∧
    0 ≤ rate_shift rates t ∧
    ∀ f ∈ rates, 0 ≤ f t + rate_shift rates t := by
  have hne : rates.map (fun f => f t) ≠ [] := by
    simpa using h
  obtain ⟨m, hmin, hmem, hlb⟩ := min?_spec _ hne
  obtain ⟨f0, hf0, hf0t⟩ := List.mem_map.mp hmem
  have hmr : min_rate rates t = m := by
    simp [min_rate, hmin]
  have habs : |min 0 m| = max 0 (-m) := by
    rcases le_total 0 m with hm | hm
    · rw [min_eq_left hm, abs_zero, max_eq_left (by linarith)]
    · rw [min_eq_right hm, abs_of_nonpos hm, max_eq_right (by linarith)]
  have hform : rate_shift rates t = 2 * max 0 (-m) := by
    rw [rate_shift, hmr, habs]
  have hlow : ∀ f ∈ rates, m ≤ f t := by
    intro f hf
    exact hlb (f t) (List.mem_map.mpr ⟨f, hf, rfl⟩)
  refine ⟨⟨m, ⟨f0, hf0, hf0t⟩, hlow, hform⟩, ?_, ?_⟩
  · rw [hform]
    have : (0 : ℚ) ≤ max 0 (-m) := le_max_left 0 (-m)
    linarith
  · intro f hf
    have h1 : m ≤ f t := hlow f hf
    have h2 : -m ≤ max 0 (-m) := le_max_right 0 (-m)
    have h3 : (0 : ℚ) ≤ max 0 (-m) := le_max_left 0 (-m)
    rw [hform]
    linarith

/-- Claim C4 witness: scenario with a single constant rate -1/2 gives
sigma = 1 at t = 0 together with the nonnegativity consequences. -/
theorem rate_shift_spec_witness :
    (∃ m, (∃ f ∈ ([fun _ => (-1 : ℚ)/2] : List (ℚ → ℚ)), f 0 = m) ∧
        (∀ f ∈ ([fun _ => (-1 : ℚ)/2] : List (ℚ → ℚ)), m ≤ f 0) ∧
        rate_shift [fun _ => (-1 : ℚ)/2] 0 = 2 * max 0 (-m)) ∧
    0 ≤ rate_shift [fun _ => (-1 : ℚ)/2] 0 ∧
    ∀ f ∈ ([fun _ => (-1 : ℚ)/2] : List (ℚ → ℚ)),
      0 ≤ f 0 + rate_shift [fun _ => (-1 : ℚ)/2] 0 :=
  rate_shift_spec [fun _ => (-1 : ℚ)/2] 0 (List.cons_ne_nil _ _)

/-- Claim C3: the discrete martingale of the empty collapse list is
exactly 1; it satisfies the product recurrence with the factor
Gamma_ik(tk) / (Gamma_ik(tk) + sigma(tk)); and in scenario B (constant
rates 1 and -2, so sigma = 4) a single jump on the second operator at
t = 1/2 gives exactly -1, sign preserved. -/
theorem discrete_martingale_product_spec :
    (∀ rates : List (ℚ → ℚ), discrete_martingale rates [] = 1) ∧
    (∀ (rates : List (ℚ → ℚ)) (tk : ℚ) (ik : ℕ) (rest : List (ℚ × ℕ)),
      discrete_martingale rates ((tk, ik) :: rest) =
        rateAt rates ik tk / (rateAt rates ik tk + rate_shift rates tk) *
          discrete_martingale rates rest) ∧
    discrete_martingale [fun _ => (1 : ℚ), fun _ => (-2 : ℚ)] [((1 : ℚ)/2, 1)] = -1 := by
  refine ⟨fun rates => rfl, fun rates tk ik rest => ?_, ?_⟩
  · simp [discrete_martingale]
  · norm_num [discrete_martingale, rateAt, rate_shift, min_rate, List.min?]

/-- Claim C1 (recording the code bug): the rate appended on line 39 is
the Python builtin float, which returns its argument, not zero.  At
t = 1/2 it evaluates to 1/2; including it changes the rate shift at
t = -1 from 0 to 2; and a recorded jump on the extra operator at
t = 1/2 (original rate constantly -2, sigma = 4) contributes the factor
1/9 to the discrete martingale instead of the zero weight a rate
identically zero would give. -/
theorem float_extra_rate_evaluates_to_time :
    pyFloat (1/2) = 1/2 ∧ pyFloat (1/2) ≠ 0 ∧
    rate_shift (append_extra_rate [fun _ => (1 : ℚ)]) (-1) = 2 ∧
    rate_shift [fun _ => (1 : ℚ)] (-1) = 0 ∧
    discrete_martingale (append_extra_rate [fun _ => (-2 : ℚ)]) [((1 : ℚ)/2, 1)] = 1/9 := by
  refine ⟨rfl, by norm_num [pyFloat], ?_, ?_, ?_⟩
  · norm_num [rate_shift, min_rate, append_extra_rate, pyFloat, List.min?]
  · norm_num [rate_shift, min_rate, List.min?]
  · norm_num [discrete_martingale, rateAt, rate_shift, min_rate, append_extra_rate,
      pyFloat, List.min?]

/-- Claim C10: the division in _discrete_martingale is unguarded.  When
every recorded event has a nonzero denominator Gamma_ik(tk) + sigma(tk),
the checked computation agrees with the unchecked product; and whenever
some recorded event has rate exactly 0 at a time where the rate shift
is also 0, the computation reaches a zero-by-zero division (the checked
variant returns none) instead of failing fast beforehand. -/
theorem discrete_martingale_division_guard (rates : List (ℚ → ℚ))
    (collapses : List (ℚ × ℕ)) :
    ((∀ e ∈ collapses, rateAt rates e.2 e.1 + rate_shift rates e.1 ≠ 0) →
      discrete_martingale_div rates collapses =
        some (discrete_martingale rates collapses)) ∧
    ((∃ e ∈ collapses, rateAt rates e.2 e.1 = 0 ∧ rate_shift rates e.1 = 0) →
      discrete_martingale_div rates collapses = none) := by
  constructor
  · intro hnz
    induction collapses with
    | nil => rfl
    | cons e rest ih =>
      have hrest : ∀ x ∈ rest, rateAt rates x.2 x.1 + rate_shift rates x.1 ≠ 0 :=
        fun x hx => hnz x (List.mem_cons_of_mem e hx)
      have he : rateAt rates e.2 e.1 + rate_shift rates e.1 ≠ 0 :=
        hnz e (List.mem_cons_self e rest)
      simp only [discrete_martingale_div, List.foldr_cons] at *
      rw [ih hrest]
      simp [he, discrete_martingale]
  · intro ⟨e, he, hg, hs⟩
    induction collapses with
    | nil => simp at he
    | cons x rest ih =>
      simp only [discrete_martingale_div, List.foldr_cons]
      rcases List.mem_cons.mp he with rfl | hmem
      · cases hfold : rest.foldr
          (fun e acc =>
            match acc with
            | none => none
            | some p =>
              if rateAt rates e.2 e.1 + rate_shift rates e.1 = 0 then none
              else some (rateAt rates e.2 e.1 /
                (rateAt rates e.2 e.1 + rate_shift rates e.1) * p))
          (some 1) with
        | none => rfl
        | some p => simp [hg, hs]
      · have := ih hmem
        simp only [discrete_martingale_div] at this
        rw [this]

/-- Claim C10 witness: with the constant rate 1 the checked division
agrees with the product (factor 1/(1+0) = 1), and with the constant
rate 0 a jump recorded at time 0 has rate 0 and rate shift 0, so the
computation reaches a zero-by-zero division. -/
theorem discrete_martingale_division_guard_witness :
    discrete_martingale_div [fun _ => (1 : ℚ)] [((0 : ℚ), 0)] =
      some (discrete_martingale [fun _ => (1 : ℚ)] [((0 : ℚ), 0)]) ∧
    discrete_martingale_div [fun _ => (0 : ℚ)] [((0 : ℚ), 0)] = none := by
  constructor
  · exact (discrete_martingale_division_guard [fun _ => (1 : ℚ)] [((0 : ℚ), 0)]).1
      (by
        intro e he
        simp only [List.mem_singleton] at he
        subst he
        norm_num [rateAt, rate_shift, min_rate, List.min?])
  · exact (discrete_martingale_division_guard [fun _ => (0 : ℚ)] [((0 : ℚ), 0)]).2
      ⟨((0 : ℚ), 0), by simp, by norm_num [rateAt],
        by norm_num [rate_shift, min_rate, List.min?]⟩

/-! ## Martingale cache (lines 77-97, 113-123 of nm_mcsolve.py)

The per-run dictionary self._mu_c maps times to continuous martingale
values; it is embedded as an association list with keys inserted at
most once.  The attribute may also be None (before run/start), embedded
as an Option.  np.exp becomes the parameter E, and the scipy quadrature
scipy.integrate.quad(f, t0, t)[0] becomes the parameter Q applied to
the integrand and the two endpoints. -/

abbrev Cache := List (ℚ × ℚ)

/-- Errors raised by _continuous_martingale: the RuntimeError of line
84 (start not called, self._mu_c is None) and the ValueError of line 92
(no cached time earlier than the queried time). -/
inductive MErr where
  | uninit
  | backward
deriving DecidableEq

/-- Embeds _continuous_martingale (lines 82-97).  The branches in
order: the None check of line 83, the exact-hit return of lines 85-86,
the search for the largest strictly earlier cached time of lines 88-92,
and the quadrature, update and return of lines 94-97. -/
def continuous_martingale (E : ℚ → ℚ) (Q : (ℚ → ℚ) → ℚ → ℚ → ℚ)
    (rates : List (ℚ → ℚ)) (a : ℚ) (mu_c : Option Cache) (t : ℚ) :
    Except MErr (ℚ × Cache) :=
  match mu_c with
  | none => .error .uninit
  | some c =>
    match c.lookup t with
    | some v => .ok (v, c)
    | none =>
      let earlier_times := (c.map Prod.fst).filter (fun t0 => t0 < t)
      match earlier_times.max? with
      | none => .error .backward
      | some t0 =>
        let integral := Q (rate_shift rates) t0 t
        let result := (c.lookup t0).getD 0 * E (a * integral)
        .ok (result, c ++ [(t, result)])

/-- One precomputation step of the loop on lines 117-118 (and equally
one cache-touching query of the trajectory loop on lines 143-146): a
raised error aborts the surrounding call, embedded as none. -/
def extend_cache (E : ℚ → ℚ) (Q : (ℚ → ℚ) → ℚ → ℚ → ℚ)
    (rates : List (ℚ → ℚ)) (a : ℚ) (oc : Option Cache) (t : ℚ) : Option Cache :=
  match oc with
  | none => none
  | some c =>
    match continuous_martingale E Q rates a (some c) t with
    | .ok (_, c2) => some c2
    | .error _ => none

/-- Embeds lines 116-118 of run: self._mu_c = {tlist[0]: 1} followed by
the precomputation of the continuous martingale at every later time of
tlist. -/
def precompute (E : ℚ → ℚ) (Q : (ℚ → ℚ) → ℚ → ℚ → ℚ)
    (rates : List (ℚ → ℚ)) (a : ℚ) (t0 : ℚ) (ts : List ℚ) : Option Cache :=
  ts.foldl (extend_cache E Q rates a) (some [(t0, 1)])

/-- Embeds the cache effect of one trajectory (_run_one_traj, lines
143-146): at every time of tlist[1:], _current_martingale queries
_continuous_martingale, which reads and possibly extends self._mu_c. -/
def traj_queries (E : ℚ → ℚ) (Q : (ℚ → ℚ) → ℚ → ℚ → ℚ)
    (rates : List (ℚ → ℚ)) (a : ℚ) (oc : Option Cache) (ts : List ℚ) :
    Option Cache :=
  ts.foldl (extend_cache E Q rates a) oc

/-- The value of self._mu_c at the moment trajectory number k of a run
begins.  Trajectory 0 starts right after the precomputation of run
(lines 116-118); trajectory k+1 starts after the queries made by
trajectory k, since run never recreates the dictionary between
trajectories. -/
def mu_c_at_traj_start (E : ℚ → ℚ) (Q : (ℚ → ℚ) → ℚ → ℚ → ℚ)
    (rates : List (ℚ → ℚ)) (a : ℚ) (t0 : ℚ) (ts : List ℚ) : ℕ → Option Cache
  | 0 => precompute E Q rates a t0 ts
  | k + 1 => traj_queries E Q rates a (mu_c_at_traj_start E Q rates a t0 ts k) ts

/-! ## Helper lemmas about cache lookups -/

theorem lookup_some_of_mem (c : Cache) (t : ℚ) (h : t ∈ c.map Prod.fst) :
    ∃ v, c.lookup t = some v := by
  obtain ⟨p, hp, hfst⟩ := List.mem_map.mp h
  have hsome : (c.lookup t).isSome := by
    rw [List.lookup_isSome_iff]
    exact ⟨p, hp, by simp [hfst]⟩
  exact ⟨(c.lookup t).get hsome, (Option.some_get hsome).symm⟩

theorem mem_of_lookup_some (c : Cache) (t : ℚ) (v : ℚ) (h : c.lookup t = some v) :
    t ∈ c.map Prod.fst := by
  have hsome : (c.lookup t).isSome := by rw [h]; rfl
  obtain ⟨p, hp, hbeq⟩ := List.lookup_isSome_iff.mp hsome
  exact List.mem_map.mpr ⟨p, hp, (eq_of_beq hbeq).symm⟩

theorem lookup_none_of_not_mem (c : Cache) (t : ℚ) (h : t ∉ c.map Prod.fst) :
    c.lookup t = none := by
  rw [List.lookup_eq_none_iff]
  intro p hp
  have : t ≠ p.1 := fun he => h (List.mem_map.mpr ⟨p, hp, he.symm⟩)
  simpa using this

/-! ## Claim theorems about the martingale cache -/

/-- Claim C2: on an exact cache hit, _continuous_martingale returns the
cached value and leaves the cache unchanged; on a miss with t0 the
largest cached key strictly below t, it returns cache[t0] * exp(a * I)
with I the quadrature of the rate shift over [t0, t], and stores the
value under key t. -/
theorem continuous_martingale_cache_spec (E : ℚ → ℚ) (Q : (ℚ → ℚ) → ℚ → ℚ → ℚ)
    (rates : List (ℚ → ℚ)) (a : ℚ) (c : Cache) (t t0 : ℚ) :
    (∀ v, c.lookup t = some v →
      continuous_martingale E Q rates a (some c) t = .ok (v, c)) ∧
    (c.lookup t = none → t0 ∈ c.map Prod.fst → t0 < t →
      (∀ k ∈ c.map Prod.fst, k < t → k ≤ t0) →
      continuous_martingale E Q rates a (some c) t =
        .ok ((c.lookup t0).getD 0 * E (a * Q (rate_shift rates) t0 t),
          c ++ [(t, (c.lookup t0).getD 0 * E (a * Q (rate_shift rates) t0 t))])) := by
  constructor
  · intro v hv
    simp [continuous_martingale, hv]
  · intro hnone hmem hlt hub
    have hfil : t0 ∈ (c.map Prod.fst).filter (fun k => decide (k < t)) :=
      List.mem_filter.mpr ⟨hmem, by simpa using hlt⟩
    have hmax : ((c.map Prod.fst).filter (fun k => decide (k < t))).max? = some t0 := by
      refine max?_eq_some_of _ _ hfil ?_
      intro b hb
      have hb2 := List.mem_filter.mp hb
      exact hub b hb2.1 (by simpa using hb2.2)
    simp [continuous_martingale, hnone, hmax]

/-- Claim C2 witness: from the cache containing only time 0 with value
1, a query at time 1 with a = 3, quadrature constantly 2 and the
function E in place of exp returns 1 * E(3 * 2) = 7 and stores it at
key 1. -/
theorem continuous_martingale_cache_spec_witness :
    continuous_martingale (fun x => x + 1) (fun _ _ _ => 2) [fun _ => (1 : ℚ)] 3
        (some [((0 : ℚ), (1 : ℚ))]) 1 = .ok (7, [(0, 1), (1, 7)]) := by
  have h := (continuous_martingale_cache_spec (fun x => x + 1) (fun _ _ _ => 2)
    [fun _ => (1 : ℚ)] 3 [((0 : ℚ), (1 : ℚ))] 1 0).2
    (by norm_num) (by norm_num) (by norm_num)
    (by
      intro k hk _
      simp only [List.map_cons, List.map_nil, List.mem_singleton] at hk
      simp [hk])
  norm_num at h
  convert h using 2

/-- Claim C7: a query before run/start has initialized the cache fails
with the uninitialized-state error, and a query at a time strictly
earlier than every cached time fails with the backward-integration
error; neither returns a value. -/
theorem continuous_martingale_error_spec (E : ℚ → ℚ) (Q : (ℚ → ℚ) → ℚ → ℚ → ℚ)
    (rates : List (ℚ → ℚ)) (a : ℚ) (t : ℚ) :
    continuous_martingale E Q rates a none t = .error .uninit ∧
    ∀ c : Cache, (∀ k ∈ c.map Prod.fst, t < k) →
      continuous_martingale E Q rates a (some c) t = .error .backward := by
  constructor
  · rfl
  · intro c hk
    have hnotmem : t ∉ c.map Prod.fst := fun hmem => absurd (hk t hmem) (lt_irrefl t)
    have hnone : c.lookup t = none := lookup_none_of_not_mem c t hnotmem
    have hfil : (c.map Prod.fst).filter (fun k => decide (k < t)) = [] := by
      refine List.filter_eq_nil_iff.mpr ?_
      intro k hmem
      simpa using not_lt_of_gt (hk k hmem)
    simp [continuous_martingale, hnone, hfil]

/-- Claim C7 witness: with the cache holding only time 1, a query at
time 0 fails with the backward-integration error. -/
theorem continuous_martingale_error_spec_witness :
    continuous_martingale (fun _ => 1) (fun _ _ _ => 0) [fun _ => (1 : ℚ)] 0
        (some [((1 : ℚ), (1 : ℚ))]) 0 = .error .backward :=
  (continuous_martingale_error_spec (fun _ => 1) (fun _ _ _ => 0)
    [fun _ => (1 : ℚ)] 0 0).2 [((1 : ℚ), (1 : ℚ))]
    (by
      intro k hk
      simp only [List.map_cons, List.map_nil, List.mem_singleton] at hk
      simp [hk])

/-! ## Lemmas about the run-level cache lifecycle -/

theorem foldl_extend_none (E : ℚ → ℚ) (Q : (ℚ → ℚ) → ℚ → ℚ → ℚ)
    (rates : List (ℚ → ℚ)) (a : ℚ) (ts : List ℚ) :
    ts.foldl (extend_cache E Q rates a) none = none := by
  induction ts with
  | nil => rfl
  | cons t rest ih => simpa [extend_cache] using ih

theorem extend_cache_keys (E : ℚ → ℚ) (Q : (ℚ → ℚ) → ℚ → ℚ → ℚ)
    (rates : List (ℚ → ℚ)) (a : ℚ) (c c2 : Cache) (t : ℚ)
    (h : extend_cache E Q rates a (some c) t = some c2) :
    t ∈ c2.map Prod.fst ∧ ∀ x ∈ c.map Prod.fst, x ∈ c2.map Prod.fst := by
  by_cases hl : ∃ v, c.lookup t = some v
  · obtain ⟨v, hv⟩ := hl
    have hcm : continuous_martingale E Q rates a (some c) t = .ok (v, c) := by
      simp [continuous_martingale, hv]
    rw [extend_cache, hcm] at h
    cases h
    exact ⟨mem_of_lookup_some c t v hv, fun x hx => hx⟩
  · have hv : c.lookup t = none := by
      cases hl2 : c.lookup t with
      | none => rfl
      | some v => exact absurd ⟨v, hl2⟩ hl
    rw [extend_cache] at h
    cases hmax : ((c.map Prod.fst).filter (fun t0 => decide (t0 < t))).max? with
    | none =>
      rw [show continuous_martingale E Q rates a (some c) t = .error .backward by
        simp [continuous_martingale, hv, hmax]] at h
      cases h
    | some t0 =>
      rw [show continuous_martingale E Q rates a (some c) t =
          .ok ((c.lookup t0).getD 0 * E (a * Q (rate_shift rates) t0 t),
            c ++ [(t, (c.lookup t0).getD 0 * E (a * Q (rate_shift rates) t0 t))]) by
        simp [continuous_martingale, hv, hmax]] at h
      cases h
      constructor
      · simp
      · intro x hx
        simp only [List.map_append, List.mem_append]
        exact Or.inl hx

theorem foldl_extend_keys (E : ℚ → ℚ) (Q : (ℚ → ℚ) → ℚ → ℚ → ℚ)
    (rates : List (ℚ → ℚ)) (a : ℚ) (ts : List ℚ) :
    ∀ c0 c : Cache, ts.foldl (extend_cache E Q rates a) (some c0) = some c →
      (∀ x ∈ c0.map Prod.fst, x ∈ c.map Prod.fst) ∧
      ∀ t ∈ ts, t ∈ c.map Prod.fst := by
  induction ts with
  | nil =>
    intro c0 c h
    cases h
    exact ⟨fun x hx => hx, by simp⟩
  | cons t rest ih =>
    intro c0 c h
    simp only [List.foldl_cons] at h
    cases h1 : extend_cache E Q rates a (some c0) t with
    | none =>
      rw [h1, foldl_extend_none] at h
      cases h
    | some c1 =>
      rw [h1] at h
      obtain ⟨ht1, hmono1⟩ := extend_cache_keys E Q rates a c0 c1 t h1
      obtain ⟨hmono2, hrest⟩ := ih c1 c h
      refine ⟨fun x hx => hmono2 x (hmono1 x hx), ?_⟩
      intro s hs
      rcases List.mem_cons.mp hs with rfl | hs2
      · exact hmono2 s ht1
      · exact hrest s hs2

theorem traj_queries_of_cached (E : ℚ → ℚ) (Q : (ℚ → ℚ) → ℚ → ℚ → ℚ)
    (rates : List (ℚ → ℚ)) (a : ℚ) (ts : List ℚ) :
    ∀ c : Cache, (∀ t ∈ ts, t ∈ c.map Prod.fst) →
      traj_queries E Q rates a (some c) ts = some c := by
  induction ts with
  | nil => intro c _; rfl
  | cons t rest ih =>
    intro c hall
    obtain ⟨v, hv⟩ := lookup_some_of_mem c t (hall t (List.mem_cons_self t rest))
    have hcm : continuous_martingale E Q rates a (some c) t = .ok (v, c) := by
      simp [continuous_martingale, hv]
    have hstep : extend_cache E Q rates a (some c) t = some c := by
      rw [extend_cache, hcm]
    simp only [traj_queries, List.foldl_cons, hstep]
    exact ih c (fun s hs => hall s (List.mem_cons_of_mem t hs))

/-- Claim C8 counterexample: with tlist = [0, 1], one constant rate,
trivial quadrature and E in place of exp, the cache in effect at the
start of trajectory 0 and at the start of trajectory 1 is the same
already populated run-level cache [(0, 1), (1, 1)], not the fresh
single-entry cache [(0, 1)] that a per-trajectory creation would
produce. -/
theorem run_cache_shared_counterexample :
    mu_c_at_traj_start (fun _ => 1) (fun _ _ _ => 0) [fun _ => (1 : ℚ)] 0 0 [1] 0 =
      some [(0, 1), (1, 1)] ∧
    mu_c_at_traj_start (fun _ => 1) (fun _ _ _ => 0) [fun _ => (1 : ℚ)] 0 0 [1] 1 =
      some [(0, 1), (1, 1)] ∧
    some [((0 : ℚ), (1 : ℚ)), (1, 1)] ≠ some [((0 : ℚ), (1 : ℚ))] := by
  have hl : List.lookup (1 : ℚ) [((0 : ℚ), (1 : ℚ))] = none := rfl
  have hm : ((List.map Prod.fst [((0 : ℚ), (1 : ℚ))]).filter
      (fun t0 => decide (t0 < 1))).max? = some 0 := rfl
  have hl0 : List.lookup (0 : ℚ) [((0 : ℚ), (1 : ℚ))] = some 1 := rfl
  have hpre : precompute (fun _ => 1) (fun _ _ _ => 0) [fun _ => (1 : ℚ)] 0 0 [1] =
      some [(0, 1), (1, 1)] := by
    simp [precompute, extend_cache, continuous_martingale, hl, hm, hl0]
  have hl1 : List.lookup (1 : ℚ) [((0 : ℚ), (1 : ℚ)), ((1 : ℚ), (1 : ℚ))] = some 1 := rfl
  have htraj : mu_c_at_traj_start (fun _ => 1) (fun _ _ _ => 0) [fun _ => (1 : ℚ)]
      0 0 [1] 1 = some [(0, 1), (1, 1)] := by
    show traj_queries (fun _ => 1) (fun _ _ _ => 0) [fun _ => (1 : ℚ)] 0
      (mu_c_at_traj_start (fun _ => 1) (fun _ _ _ => 0) [fun _ => (1 : ℚ)] 0 0 [1] 0)
      [1] = some [(0, 1), (1, 1)]
    rw [show mu_c_at_traj_start (fun _ => 1) (fun _ _ _ => 0) [fun _ => (1 : ℚ)]
        0 0 [1] 0 = some [(0, 1), (1, 1)] from hpre]
    simp only [traj_queries, List.foldl_cons, List.foldl_nil, extend_cache,
      continuous_martingale, hl1]
  exact ⟨hpre, htraj, by simp⟩

/-- Claim C8 amended: the cache self._mu_c is created once per run,
before any trajectory, pre-populated at every requested time; every
trajectory of the run then starts with that same run-level cache (the
queries of a trajectory are exact hits and leave it unchanged). -/
theorem run_cache_per_run_spec (E : ℚ → ℚ) (Q : (ℚ → ℚ) → ℚ → ℚ → ℚ)
    (rates : List (ℚ → ℚ)) (a : ℚ) (t0 : ℚ) (ts : List ℚ) (k : ℕ) :
    mu_c_at_traj_start E Q rates a t0 ts k = precompute E Q rates a t0 ts := by
  induction k with
  | zero => rfl
  | succ k ih =>
    show traj_queries E Q rates a (mu_c_at_traj_start E Q rates a t0 ts k) ts =
      precompute E Q rates a t0 ts
    rw [ih]
    cases hp : precompute E Q rates a t0 ts with
    | none => exact foldl_extend_none E Q rates a ts
    | some c =>
      obtain ⟨_, hall⟩ := foldl_extend_keys E Q rates a ts [(t0, 1)] c hp
      exact traj_queries_of_cached E Q rates a ts c hall

/-! ## Operator level (lines 11-14, 44-59, 107-111, 125-130)

Operators are square matrices over a field with a star operation
(complex matrices in qutip; the structural facts hold for any such
field).  The external linear-algebra collaborators (the tolerance-aware
Qobj equality used under CoreOptions, np.real, eigenenergies and sqrtm)
are passed as function parameters. -/

/-- Embeds op = sum(L.dag() * L for L, _ in ops_and_rates) (line 49). -/
def omegaOf {n : ℕ} {K : Type} [Field K] [StarRing K]
    (ops : List (Matrix (Fin n) (Fin n) K)) : Matrix (Fin n) (Fin n) K :=
  (ops.map (fun L => L.conjTranspose * L)).sum

/-- Embeds _check_completeness (lines 48-59).  close models the
tolerance-aware operator equality of lines 52-54, re models np.real
(line 55), maxEig models max(op.eigenenergies()) (line 57) and sqrtm
models the matrix square root of line 58. -/
def check_completeness {n : ℕ} {K : Type} [Field K] [StarRing K]
    (close : Matrix (Fin n) (Fin n) K → Matrix (Fin n) (Fin n) K → Bool)
    (re : K → K) (maxEig : Matrix (Fin n) (Fin n) K → K)
    (sqrtm : Matrix (Fin n) (Fin n) K → Matrix (Fin n) (Fin n) K)
    (ops : List (Matrix (Fin n) (Fin n) K)) :
    K × Option (Matrix (Fin n) (Fin n) K) :=
  let op := omegaOf ops
  let a_candidate := op.trace / (n : K)
  if close op (a_candidate • 1) then (re a_candidate, none)
  else
    let a := maxEig op
    (a, some (sqrtm (a • 1 - op)))

/-- The state handed back by the external jump engine: a pure-state ket
or a density matrix. -/
inductive QState (n : ℕ) (K : Type) where
  | ket (v : Fin n → K)
  | dm (ρ : Matrix (Fin n) (Fin n) K)

/-- Embeds qutip ket2dm as invoked by _2dm (line 13): the outer product
taking a normalized ket to the corresponding density matrix. -/
def ket2dm {n : ℕ} {K : Type} [Field K] [StarRing K] (v : Fin n → K) :
    Matrix (Fin n) (Fin n) K :=
  Matrix.of (fun i j => v i * star (v j))

/-- Embeds _2dm (lines 11-14): a ket is converted with ket2dm, a
density matrix is returned unchanged. -/
def toDm {n : ℕ} {K : Type} [Field K] [StarRing K] :
    QState n K → Matrix (Fin n) (Fin n) K
  | .ket v => ket2dm v
  | .dm ρ => ρ

/-- Embeds _current_martingale (lines 107-111): the continuous part at
the integrator time multiplied by the discrete part over the collapse
list of the integrator. -/
def current_martingale (E : ℚ → ℚ) (Q : (ℚ → ℚ) → ℚ → ℚ → ℚ)
    (rates : List (ℚ → ℚ)) (a : ℚ) (mu_c : Option Cache) (t : ℚ)
    (collapses : List (ℚ × ℕ)) : Except MErr ℚ :=
  (continuous_martingale E Q rates a mu_c t).map
    (fun p => p.1 * discrete_martingale rates collapses)

/-- Embeds step (lines 127-130): the engine state s propagated to t is
converted to a density matrix by _2dm and multiplied by the current
martingale. -/
def step_dm {n : ℕ} (E : ℚ → ℚ) (Q : (ℚ → ℚ) → ℚ → ℚ → ℚ)
    (rates : List (ℚ → ℚ)) (a : ℚ) (mu_c : Option Cache) (t : ℚ)
    (collapses : List (ℚ × ℕ)) (s : QState n ℚ) :
    Except MErr (Matrix (Fin n) (Fin n) ℚ) :=
  (current_martingale E Q rates a mu_c t collapses).map (fun mu => mu • toDm s)

/-! ## Claim theorems at the operator level -/

/-- Claim C5: _check_completeness computes Omega as the sum of
L.dag() * L over the pairs; when the tolerance comparison finds Omega
equal to (trace/dim) * Identity it returns that scalar and no extra
operator; otherwise it returns the largest eigenvalue a and the matrix
square root of a * Identity - Omega, and whenever the external square
root satisfies its contract sqrtm(M).dag() * sqrtm(M) = M, the
augmented identity Omega + L_extra.dag() * L_extra = a * Identity holds
exactly. -/
theorem check_completeness_spec {n : ℕ} {K : Type} [Field K] [StarRing K]
    (close : Matrix (Fin n) (Fin n) K → Matrix (Fin n) (Fin n) K → Bool)
    (re : K → K) (maxEig : Matrix (Fin n) (Fin n) K → K)
    (sqrtm : Matrix (Fin n) (Fin n) K → Matrix (Fin n) (Fin n) K)
    (ops : List (Matrix (Fin n) (Fin n) K)) :
    (close (omegaOf ops) (((omegaOf ops).trace / (n : K)) • 1) = true →
      check_completeness close re maxEig sqrtm ops =
        (re ((omegaOf ops).trace / (n : K)), none)) ∧
    (close (omegaOf ops) (((omegaOf ops).trace / (n : K)) • 1) = false →
      check_completeness close re maxEig sqrtm ops =
        (maxEig (omegaOf ops),
          some (sqrtm (maxEig (omegaOf ops) • 1 - omegaOf ops))) ∧
      ((sqrtm (maxEig (omegaOf ops) • 1 - omegaOf ops)).conjTranspose *
          sqrtm (maxEig (omegaOf ops) • 1 - omegaOf ops) =
            maxEig (omegaOf ops) • 1 - omegaOf ops →
        omegaOf ops + (sqrtm (maxEig (omegaOf ops) • 1 - omegaOf ops)).conjTranspose *
          sqrtm (maxEig (omegaOf ops) • 1 - omegaOf ops) =
            maxEig (omegaOf ops) • (1 : Matrix (Fin n) (Fin n) K))) := by
  refine ⟨fun h => ?_, fun h => ⟨?_, fun hs => ?_⟩⟩
  · simp [check_completeness, h]
  · simp [check_completeness, h]
  · rw [hs]
    abel

/-- Claim C5 witness: for the single operator |0><0| on dimension 2
(Omega not proportional to the identity), with the external
collaborators instantiated concretely (comparison constantly false,
largest eigenvalue 1, identity square root since a * I - Omega is
already the projector |1><1|), the check returns a = 1 with the extra
operator |1><1| and the augmented identity holds. -/
theorem check_completeness_spec_witness :
    check_completeness (fun _ _ => false) (fun x => x) (fun _ => (1 : ℚ)) (fun M => M)
        [(!![(1 : ℚ), 0; 0, 0])] = (1, some !![0, 0; 0, 1]) ∧
    omegaOf [(!![(1 : ℚ), 0; 0, 0])] +
      (!![(0 : ℚ), 0; 0, 1]).conjTranspose * !![(0 : ℚ), 0; 0, 1] =
        (1 : ℚ) • (1 : Matrix (Fin 2) (Fin 2) ℚ) := by
  have h := (check_completeness_spec (fun _ _ => false) (fun x => x)
    (fun _ => (1 : ℚ)) (fun M => M) [(!![(1 : ℚ), 0; 0, 0])]).2 rfl
  have hW : omegaOf [(!![(1 : ℚ), 0; 0, 0])] = !![1, 0; 0, 0] := by
    ext i j
    fin_cases i <;> fin_cases j <;>
      simp [omegaOf, Matrix.mul_apply, Matrix.conjTranspose_apply, Fin.sum_univ_two]
  have hM : (1 : ℚ) • (1 : Matrix (Fin 2) (Fin 2) ℚ) - !![(1 : ℚ), 0; 0, 0] =
      !![0, 0; 0, 1] := by
    ext i j
    fin_cases i <;> fin_cases j <;> simp [Matrix.one_apply]
  have hM2 : (1 : ℚ) • (1 : Matrix (Fin 2) (Fin 2) ℚ) -
      omegaOf [(!![(1 : ℚ), 0; 0, 0])] = !![0, 0; 0, 1] := by
    rw [hW]
    exact hM
  constructor
  · rw [h.1, hM2]
  · have hsq : ((1 : ℚ) • (1 : Matrix (Fin 2) (Fin 2) ℚ) -
        omegaOf [(!![(1 : ℚ), 0; 0, 0])]).conjTranspose *
          ((1 : ℚ) • (1 : Matrix (Fin 2) (Fin 2) ℚ) -
            omegaOf [(!![(1 : ℚ), 0; 0, 0])]) =
          (1 : ℚ) • (1 : Matrix (Fin 2) (Fin 2) ℚ) -
            omegaOf [(!![(1 : ℚ), 0; 0, 0])] := by
      rw [hM2]
      ext i j
      fin_cases i <;> fin_cases j <;>
        simp [Matrix.mul_apply, Matrix.conjTranspose_apply, Fin.sum_univ_two,
          Matrix.vecHead, Matrix.vecTail]
    have hid := h.2 hsq
    rw [← hM2]
    exact hid

/-- Claim C9: step multiplies the engine state, converted to a density
matrix by _2dm, with the current martingale value; the trace of the
returned matrix equals that martingale value, not 1, whenever the
engine delivered a trace-one state; a ket is first turned into its
outer-product density matrix. -/
theorem step_weighted_dm_spec {n : ℕ} (E : ℚ → ℚ) (Q : (ℚ → ℚ) → ℚ → ℚ → ℚ)
    (rates : List (ℚ → ℚ)) (a : ℚ) (mu_c : Option Cache) (t : ℚ)
    (collapses : List (ℚ × ℕ)) (s : QState n ℚ) (mu : ℚ)
    (hmu : current_martingale E Q rates a mu_c t collapses = .ok mu)
    (htr : (toDm s).trace = 1) :
    step_dm E Q rates a mu_c t collapses s = .ok (mu • toDm s) ∧
    (mu • toDm s).trace = mu ∧
    ∀ v, s = QState.ket v → mu • toDm s = mu • ket2dm v := by
  refine ⟨?_, ?_, ?_⟩
  · rw [step_dm, hmu]
    rfl
  · rw [Matrix.trace_smul, htr, smul_eq_mul, mul_one]
  · intro v hv
    subst hv
    rfl

/-- Claim C9 witness: in scenario B at time 0 (cached continuous value
1, one recorded jump on the second operator giving discrete value -1),
step on the ket (1, 0) returns the outer-product density matrix scaled
by the martingale -1, whose trace is -1 rather than 1. -/
theorem step_weighted_dm_spec_witness :
    step_dm (fun _ => 1) (fun _ _ _ => 0) [fun _ => (1 : ℚ), fun _ => (-2 : ℚ)] 0
        (some [((0 : ℚ), (1 : ℚ))]) 0 [((1 : ℚ)/2, 1)]
        (QState.ket ![1, 0] : QState 2 ℚ) =
      .ok ((-1 : ℚ) • toDm (QState.ket ![1, 0] : QState 2 ℚ)) ∧
    ((-1 : ℚ) • toDm (QState.ket ![1, 0] : QState 2 ℚ)).trace = -1 := by
  have hd : discrete_martingale [fun _ => (1 : ℚ), fun _ => (-2 : ℚ)]
      [((1 : ℚ)/2, 1)] = -1 := by
    norm_num [discrete_martingale, rateAt, rate_shift, min_rate, List.min?]
  have hc : continuous_martingale (fun _ => 1) (fun _ _ _ => 0)
      [fun _ => (1 : ℚ), fun _ => (-2 : ℚ)] 0 (some [((0 : ℚ), (1 : ℚ))]) 0 =
      .ok (1, [((0 : ℚ), (1 : ℚ))]) := by
    simp [continuous_martingale, List.lookup_cons_self]
  have hmu : current_martingale (fun _ => 1) (fun _ _ _ => 0)
      [fun _ => (1 : ℚ), fun _ => (-2 : ℚ)] 0 (some [((0 : ℚ), (1 : ℚ))]) 0
      [((1 : ℚ)/2, 1)] = .ok (-1) := by
    rw [current_martingale, hc]
    simp only [Except.map]
    rw [one_mul, hd]
  have htr : (toDm (QState.ket ![1, 0] : QState 2 ℚ)).trace = 1 := by
    simp [toDm, ket2dm, Matrix.trace, Matrix.diag, Fin.sum_univ_two]
  have h := step_weighted_dm_spec (fun _ => 1) (fun _ _ _ => 0)
    [fun _ => (1 : ℚ), fun _ => (-2 : ℚ)] 0 (some [((0 : ℚ), (1 : ℚ))]) 0
    [((1 : ℚ)/2, 1)] (QState.ket ![1, 0] : QState 2 ℚ) (-1) hmu htr
  exact ⟨h.1, h.2.1⟩
